import Mathlib

/-!
Verification of the morphological-transform core (`morph.rs`): the kernel-mask
generator `KernelImage`, the `Dilation` and `Erosion` sliding-window operators,
and the `Stroke` composer.  Machine integers (`u32`) are modelled as `ℕ` with
explicit wrapping modulo `2^32` where the source performs `u32` arithmetic
(release-mode semantics); `f32` kernel weights are modelled as exact rationals.
The pixel trait and the `Image` container live outside this repository's
sources and are modelled from the specification's capability surface.
-/

namespace Ril

/-- Size of the `u32` range: `u32` arithmetic wraps modulo this constant. -/
def U32M : ℕ := 4294967296

/-- Half of the `u32` range. -/
def U32H : ℕ := 2147483648

/-- Wrapping `u32` subtraction `a - b` (release-mode semantics), meaningful for
`a < U32M` and `b ≤ U32M`. -/
def wsub (a b : ℕ) : ℕ := (U32M + a - b) % U32M

/-- Checked `u32` subtraction, mirroring `u32::checked_sub`: `some (a - b)` when
`b ≤ a`, otherwise `none`. -/
def checkedSub (a b : ℕ) : Option ℕ := if b ≤ a then some (a - b) else none

/-- The kernel mask `KernelImage` of `morph.rs`: a row-major flat buffer of
`f32` weights (modelled as exact rationals) together with stored dimensions. -/
structure KernelImage where
  data : List ℚ
  width : ℕ
  height : ℕ

/-- `KernelImage::resolve_coordinate`: the flat row-major index
`(y * self.width + x) as usize`, computed with wrapping `u32` arithmetic. -/
def KernelImage.resolveCoordinate (k : KernelImage) (x y : ℕ) : ℕ :=
  (y * k.width + x) % U32M

/-- `KernelImage::get_pixel`: `self.data.get(self.resolve_coordinate(x, y))`.
Note the source checks only the flat index against the buffer length; it never
compares `x` against `width`. -/
def KernelImage.getPixel (k : KernelImage) (x y : ℕ) : Option ℚ :=
  k.data[k.resolveCoordinate x y]?

/-- `KernelImage::pixel`, totalised: the weight at the flat index, defaulting to
`0` out of range (the source indexes directly and is fatal out of range). -/
def KernelImage.pixelD (k : KernelImage) (x y : ℕ) : ℚ :=
  (k.data[k.resolveCoordinate x y]?).getD 0

/-- A write through `KernelImage::pixel_mut`: `*self.pixel_mut(x, y) = v`, i.e.
`data[resolve_coordinate(x, y)] = v`.  The source is fatal when the flat index
is out of range; the model leaves the buffer unchanged there.  Length and
dimensions are unchanged in either reading. -/
def KernelImage.setCell (k : KernelImage) (x y : ℕ) (v : ℚ) : KernelImage :=
  { k with data := k.data.set (k.resolveCoordinate x y) v }

/-- `KernelImage::new`: an all-zero buffer of length `(width * height) as usize`,
where the product is `u32` multiplication (wrapping). -/
def KernelImage.new (width height : ℕ) : KernelImage :=
  { data := List.replicate ((width * height) % U32M) 0
    width := width
    height := height }

/-- `KernelImage::dimensions`. -/
def KernelImage.dimensions (k : KernelImage) : ℕ × ℕ := (k.width, k.height)

/-- Sets every cell of a list of coordinates to weight `1.0`, in order: the
common shape of the `Cross` and ellipse fill loops, each of whose iterations is
one `pixel_mut` write of `1.0`. -/
def KernelImage.applyOnes (k : KernelImage) (ws : List (ℕ × ℕ)) : KernelImage :=
  ws.foldl (fun k c => k.setCell c.1 c.2 1) k

/-- The `Rect` arm of `KernelImage::from_shape`:
`for i in 0..kernel.data.len() { kernel.data[i] = 1.0; }` applied to
`KernelImage::new width height`. -/
def fromShapeRect (width height : ℕ) : KernelImage :=
  let k := KernelImage.new width height
  { k with data := (List.range k.data.length).foldl (fun d i => d.set i 1) k.data }

/-- The write sequence of the `Cross` arm of `KernelImage::from_shape`: the
column at `width / 2` (one write per row), then the row at `height / 2`. -/
def crossWrites (width height : ℕ) : List (ℕ × ℕ) :=
  (List.range height).map (fun y => (width / 2, y)) ++
    (List.range width).map (fun x => (x, height / 2))

/-- The `Cross` arm of `KernelImage::from_shape`: both centered lines set to
`1.0` on the all-zero kernel. -/
def fromShapeCross (width height : ℕ) : KernelImage :=
  (KernelImage.new width height).applyOnes (crossWrites width height)

/-- The numerator `self.width - 2` (resp. `self.height - 2`) computed by the
anti-aliased branch of `KernelImage::draw_ellipse` for the semi-axes: a plain
`u32` subtraction, which wraps (release) or is fatal (debug) when the operand
is below `2`. -/
def aaAxisNum (w : ℕ) : ℕ := wsub w 2

/-- The integer data of the two sweep passes of `draw_ellipse`, abstracting its
`f32` boundary computations: `q1` is the rounded first-sweep bound
`round(a^2 / sqrt(a^2 + b^2))` and `f1 x` the floored boundary
`floor(b * sqrt(1 - x^2 / a^2))` (after the saturating `as u32` cast);
`q2` and `f2` likewise for the second sweep. -/
structure SweepData where
  q1 : ℕ
  f1 : ℕ → ℕ
  q2 : ℕ
  f2 : ℕ → ℕ

/-- The k-range of `fill_4sym`: `ox - px - x ..= ox + x` in `u32` arithmetic.
When the start underflows past the end the range is empty (release-mode
wrapping). -/
def fillRange (ox px x : ℕ) : List ℕ :=
  let lo := wsub (wsub ox px) x
  let hi := (ox + x) % U32M
  if lo ≤ hi then (List.range (hi - lo + 1)).map (fun t => lo + t) else []

/-- The writes of one `fill_4sym` call: for each `k` in the range, the cell on
row `oy + y` and then the cell on row `oy - py - y` (`u32` arithmetic). -/
def fillFourSymWrites (ox oy px py x y : ℕ) : List (ℕ × ℕ) :=
  (fillRange ox px x).flatMap (fun k => [(k, (oy + y) % U32M), (k, wsub (wsub oy py) y)])

/-- The write sequence of the non-anti-aliased `draw_ellipse`: sweep 1 over
`x = 0 ..= q1` filling spans of half-width `x` at rows `oy ± f1 x`, then sweep
2 over `y = 0 ..= q2` filling spans of half-width `f2 y` at rows `oy ± y`,
with center `(ox, oy) = (w/2, h/2)` and parity correctors
`px = 1 - w % 2`, `py = 1 - h % 2`. -/
def ellipseWrites (w h : ℕ) (sw : SweepData) : List (ℕ × ℕ) :=
  ((List.range (sw.q1 + 1)).flatMap (fun x =>
      fillFourSymWrites (w / 2) (h / 2) (1 - w % 2) (1 - h % 2) x (sw.f1 x))) ++
    ((List.range (sw.q2 + 1)).flatMap (fun y =>
      fillFourSymWrites (w / 2) (h / 2) (1 - w % 2) (1 - h % 2) (sw.f2 y) y))

/-- The `Ellipse` arm of `from_shape` (`draw_ellipse` with `anti_alias = false`):
the `fill_4sym` writes applied to the all-zero kernel.  The integer write
pattern is translated faithfully; the `f32` sweep bounds and boundary floors
enter through `sw`. -/
def fromShapeEllipse (w h : ℕ) (sw : SweepData) : KernelImage :=
  (KernelImage.new w h).applyOnes (ellipseWrites w h sw)

/-- Modelled from the spec: the capability surface the operators require from
the pixel value type (§6): a neutral/minimum `default`, its `complement` as the
neutral/maximum, scale-by-float, and component-wise `max` / `min`.  The
concrete pixel implementations live outside this repository's sources. -/
structure PixelOps (P : Type) where
  pdefault : P
  pcompl : P → P
  pscale : P → ℚ → P
  pmax : P → P → P
  pmin : P → P → P

/-- Modelled from the spec: the pixel-grid collaborator (`Image<P>`), reduced to
the surface the operators use: `dimensions` and per-coordinate pixel access.
The pixel grid is represented functionally. -/
structure ImageF (P : Type) where
  width : ℕ
  height : ℕ
  pix : ℕ → ℕ → P

/-- Modelled from the spec: `Image::get_pixel`, a bounds-checked read returning
`None` out of bounds (§6). -/
def ImageF.getPixel (img : ImageF P) (x y : ℕ) : Option P :=
  if x < img.width ∧ y < img.height then some (img.pix x y) else none

/-- Modelled from the spec: a successful write through `Image::pixel_mut`
(fatal out of range in the source; the model performs the functional update). -/
def ImageF.setPix (img : ImageF P) (x y : ℕ) (v : P) : ImageF P :=
  { img with pix := fun a b => if a = x ∧ b = y then v else img.pix a b }

/-- Modelled from the spec: `Image::map_pixels`, a per-pixel transformed copy. -/
def ImageF.mapPixels (f : P → Q) (img : ImageF P) : ImageF Q :=
  { width := img.width, height := img.height, pix := fun x y => f (img.pix x y) }

/-- Applies a list of positioned pixel writes to a destination image, in order:
the shape of the operators' double write loop. -/
def ImageF.applyWrites (dest : ImageF P) (ws : List ((ℕ × ℕ) × P)) : ImageF P :=
  ws.foldl (fun d wv => d.setPix wv.1.1 wv.1.2 wv.2) dest

/-- The positioned writes of the double loop
`for (y, i) in (y1..y2).zip(0..) { for (x, j) in (x1..x2).zip(0..) { ... } }`:
rows first, destination coordinate `(x1 + j, y1 + i)`, value `f j i`. -/
def writeLoop (w h x1 y1 : ℕ) (f : ℕ → ℕ → P) : List ((ℕ × ℕ) × P) :=
  (List.range h).flatMap (fun i =>
    (List.range w).map (fun j => ((x1 + j, y1 + i), f j i)))

/-- The anchor offset `(kernel_dim as f64 * anchor_fraction) as u32`: the floor
of `n * a`, with the saturating-to-zero cast of negative values.  The floor of
the rational `n * a = (n * a.num) / a.den` is written as a flooring integer
division so that the kernel can evaluate it. -/
def anchorOffset (n : ℕ) (a : ℚ) : ℕ := (Int.fdiv ((n : ℤ) * a.num) (a.den : ℤ)).toNat

/-- The `Dilation` configuration of `morph.rs`: borrowed source and kernel, a
destination placement `position`, and a fractional `anchor`. -/
structure Dilation (P : Type) where
  src : ImageF P
  kernel : KernelImage
  position : ℕ × ℕ
  anchor : ℚ × ℚ

/-- `Dilation::new`: position `(0, 0)`, anchor `(0.5, 0.5)`. -/
def Dilation.new (src : ImageF P) (kernel : KernelImage) : Dilation P :=
  { src := src, kernel := kernel, position := (0, 0), anchor := (mkRat 1 2, mkRat 1 2) }

/-- The `Erosion` configuration of `morph.rs`, structurally identical to
`Dilation`. -/
structure Erosion (P : Type) where
  src : ImageF P
  kernel : KernelImage
  position : ℕ × ℕ
  anchor : ℚ × ℚ

/-- `Erosion::new`: position `(0, 0)`, anchor `(0.5, 0.5)`. -/
def Erosion.new (src : ImageF P) (kernel : KernelImage) : Erosion P :=
  { src := src, kernel := kernel, position := (0, 0), anchor := (mkRat 1 2, mkRat 1 2) }

/-- The body of one inner-loop iteration of `Dilation::draw`'s closure `d` at
kernel cell `c = (kx, ky)`: if the cell has a weight, and both checked
subtractions `(x + kx) - ax`, `(y + ky) - ay` succeed, the running maximum `m`
absorbs the source sample scaled by the weight, with `P::default()` when the
sample coordinate is out of source bounds; otherwise `m` is unchanged.
Additions are `u32` (wrapping). -/
def dilationStep (ops : PixelOps P) (src : ImageF P) (kernel : KernelImage)
    (ax ay : ℕ) (x y : ℕ) (m : P) (c : ℕ × ℕ) : P :=
  match kernel.getPixel c.1 c.2 with
  | none => m
  | some k =>
    match checkedSub ((x + c.1) % U32M) ax, checkedSub ((y + c.2) % U32M) ay with
    | some sx, some sy =>
        ops.pmax m (((src.getPixel sx sy).map (fun p => ops.pscale p k)).getD ops.pdefault)
    | _, _ => m

/-- The body of one inner-loop iteration of `Erosion::draw`'s closure `d`:
cells whose weight is not strictly positive are skipped (`continue`); otherwise
as in dilation but reduced by `min`, still falling back to `P::default()` when
the sample coordinate is out of source bounds. -/
def erosionStep (ops : PixelOps P) (src : ImageF P) (kernel : KernelImage)
    (ax ay : ℕ) (x y : ℕ) (m : P) (c : ℕ × ℕ) : P :=
  match kernel.getPixel c.1 c.2 with
  | none => m
  | some k =>
    if ¬ 0 < k then m
    else
      match checkedSub ((x + c.1) % U32M) ax, checkedSub ((y + c.2) % U32M) ay with
      | some sx, some sy =>
          ops.pmin m (((src.getPixel sx sy).map (fun p => ops.pscale p k)).getD ops.pdefault)
      | _, _ => m

/-- The per-destination-pixel closure `d` of `Dilation::draw`: the double loop
over kernel rows and columns, reducing by `dilationStep` from the
pixel-algebra neutral minimum `P::default()`. -/
def dilationPixel (ops : PixelOps P) (src : ImageF P) (kernel : KernelImage)
    (ax ay : ℕ) (x y : ℕ) : P :=
  (List.range kernel.height).foldl (fun m ky =>
    (List.range kernel.width).foldl
      (fun m kx => dilationStep ops src kernel ax ay x y m (kx, ky)) m)
    ops.pdefault

/-- The per-destination-pixel closure `d` of `Erosion::draw`: the double loop
over kernel rows and columns, reducing by `erosionStep` from the neutral
maximum `!P::default()`. -/
def erosionPixel (ops : PixelOps P) (src : ImageF P) (kernel : KernelImage)
    (ax ay : ℕ) (x y : ℕ) : P :=
  (List.range kernel.height).foldl (fun m ky =>
    (List.range kernel.width).foldl
      (fun m kx => erosionStep ops src kernel ax ay x y m (kx, ky)) m)
    (ops.pcompl ops.pdefault)

/-- `Dilation::draw`: writes `d(j, i)` to every destination coordinate of the
box `[position, position + source_dimensions)`, the ranges being `u32`
(`x2 = x1 + w` wraps, and a wrapped range is empty). -/
def Dilation.draw (ops : PixelOps P) (cfg : Dilation P) (dest : ImageF P) : ImageF P :=
  let ax := anchorOffset cfg.kernel.width cfg.anchor.1
  let ay := anchorOffset cfg.kernel.height cfg.anchor.2
  let x1 := cfg.position.1
  let y1 := cfg.position.2
  let x2 := (x1 + cfg.src.width) % U32M
  let y2 := (y1 + cfg.src.height) % U32M
  dest.applyWrites (writeLoop (x2 - x1) (y2 - y1) x1 y1
    (fun j i => dilationPixel ops cfg.src cfg.kernel ax ay j i))

/-- `Erosion::draw`: as `Dilation::draw` with the erosion per-pixel closure. -/
def Erosion.draw (ops : PixelOps P) (cfg : Erosion P) (dest : ImageF P) : ImageF P :=
  let ax := anchorOffset cfg.kernel.width cfg.anchor.1
  let ay := anchorOffset cfg.kernel.height cfg.anchor.2
  let x1 := cfg.position.1
  let y1 := cfg.position.2
  let x2 := (x1 + cfg.src.width) % U32M
  let y2 := (y1 + cfg.src.height) % U32M
  dest.applyWrites (writeLoop (x2 - x1) (y2 - y1) x1 y1
    (fun j i => erosionPixel ops cfg.src cfg.kernel ax ay j i))

/-- An RGBA color, channels modelled as `u8` values in `ℕ`. -/
structure Rgba where
  r : ℕ
  g : ℕ
  b : ℕ
  a : ℕ

/-- Modelled from the spec: `Image::band(3)`, extracting the alpha channel of
an RGBA image as a single-channel grid (§6). -/
def bandAlpha (img : ImageF Rgba) : ImageF ℕ :=
  { width := img.width, height := img.height, pix := fun x y => (img.pix x y).a }

/-- The `Stroke` configuration of `morph.rs`: the extracted alpha band, the
stroke size, fill color and binarisation threshold. -/
structure Stroke where
  alpha : ImageF ℕ
  size : ℕ
  color : Rgba
  threshold : ℕ

/-- `Stroke::new`: extracts `image.band(3)`, clamps `size` to at least `1`,
threshold defaults to `0`. -/
def Stroke.new (image : ImageF Rgba) (size : ℕ) (color : Rgba) : Stroke :=
  { alpha := bandAlpha image, size := max size 1, color := color, threshold := 0 }

/-- `Stroke::with_threshold`. -/
def Stroke.withThreshold (s : Stroke) (t : ℕ) : Stroke := { s with threshold := t }

/-- The kernel side length `self.size * 2 - 1` computed by `Stroke::draw`,
in `u32` arithmetic. -/
def Stroke.kSize (s : Stroke) : ℕ := wsub ((s.size * 2) % U32M) 1

/-- The binarisation step of `Stroke::draw`:
`map_pixels(|p| L(if p.0 > self.threshold { 255 } else { 0 }))` applied to the
stroke's alpha band. -/
def Stroke.binarized (s : Stroke) : ImageF ℕ :=
  s.alpha.mapPixels (fun p => if s.threshold < p then 255 else 0)

/-- A constant-valued image. -/
def constImg (P : Type) (w h : ℕ) (v : P) : ImageF P :=
  { width := w, height := h, pix := fun _ _ => v }

/-- A concrete pixel model for witnesses: 8-bit luminance values with the usual
order, complement `255 - v`, and floor-and-clamp float scaling. -/
def opsU8 : PixelOps (Fin 256) :=
  { pdefault := 0
    pcompl := fun p => ⟨255 - p.val, by omega⟩
    pscale := fun p q => ⟨min 255 (Int.fdiv ((p.val : ℤ) * q.num) (q.den : ℤ)).toNat, by omega⟩
    pmax := fun a b => max a b
    pmin := fun a b => min a b }

section FoldHelpers

variable {α β : Type _} {P Q : Type _}

/-- A fold whose step acts as the identity on unselected elements equals the
fold of the selected values. -/
theorem foldl_step_eq_foldl_filterMap (sel : α → Option β) (f : P → β → P)
    (step : P → α → P)
    (hstep : ∀ m a, step m a = match sel a with | some b => f m b | none => m) :
    ∀ (l : List α) (m : P), l.foldl step m = (l.filterMap sel).foldl f m := by
  intro l
  induction l with
  | nil => intro m; rfl
  | cons a t ih =>
    intro m
    rw [List.foldl_cons, hstep]
    cases h : sel a with
    | none => rw [List.filterMap_cons_none h, ih]
    | some b => rw [List.filterMap_cons_some h, List.foldl_cons, ih]

/-- Two selections that differ only by extra occurrences of a value the
combiner ignores produce the same fold. -/
theorem foldl_filterMap_congr_of_neutral (s1 s2 : α → Option P) (f : P → P → P)
    (e : P) (hf : ∀ m, f m e = m) :
    ∀ (l : List α), (∀ a ∈ l, s1 a = s2 a ∨ (s1 a = some e ∧ s2 a = none)) →
      ∀ m, (l.filterMap s1).foldl f m = (l.filterMap s2).foldl f m := by
  intro l
  induction l with
  | nil => intro _ m; rfl
  | cons a t ih =>
    intro h m
    have ha := h a (List.mem_cons_self a t)
    have ht : ∀ b ∈ t, s1 b = s2 b ∨ (s1 b = some e ∧ s2 b = none) :=
      fun b hb => h b (List.mem_cons_of_mem a hb)
    rcases ha with heq | ⟨h1, h2⟩
    · cases hs : s2 a with
      | none =>
        rw [List.filterMap_cons_none (heq.trans hs), List.filterMap_cons_none hs, ih ht]
      | some b =>
        rw [List.filterMap_cons_some (heq.trans hs), List.filterMap_cons_some hs,
          List.foldl_cons, List.foldl_cons, ih ht]
    · rw [List.filterMap_cons_some h1, List.filterMap_cons_none h2, List.foldl_cons, hf,
        ih ht]

/-- Folding `f` from `top` over a non-empty list of copies of `v` yields `v`,
given that `top` and `v` are respectively neutral and idempotent for `f`. -/
theorem foldl_const_of_neutral (f : P → P → P) (top v : P)
    (htop : f top v = v) (hidem : f v v = v) :
    ∀ (l : List P), l ≠ [] → (∀ a ∈ l, a = v) → l.foldl f top = v := by
  have aux : ∀ (l : List P), (∀ a ∈ l, a = v) → l.foldl f v = v := by
    intro l
    induction l with
    | nil => intro _; rfl
    | cons a t ih =>
      intro h
      rw [List.foldl_cons, h a (List.mem_cons_self a t), hidem,
        ih fun b hb => h b (List.mem_cons_of_mem a hb)]
  intro l hne h
  cases l with
  | nil => exact absurd rfl hne
  | cons a t =>
    rw [List.foldl_cons, h a (List.mem_cons_self a t), htop,
      aux t fun b hb => h b (List.mem_cons_of_mem a hb)]

end FoldHelpers

section WriteHelpers

variable {P : Type _}

/-- Pixels no write targets are unchanged by `applyWrites`. -/
theorem applyWrites_pix_of_not_mem :
    ∀ (ws : List ((ℕ × ℕ) × P)) (d : ImageF P) (x y : ℕ),
      (∀ wv ∈ ws, wv.1 ≠ (x, y)) → (d.applyWrites ws).pix x y = d.pix x y := by
  intro ws
  induction ws with
  | nil => intro d x y _; rfl
  | cons wv t ih =>
    intro d x y h
    have hne := h wv (List.mem_cons_self wv t)
    have ht : ∀ wv' ∈ t, wv'.1 ≠ (x, y) := fun wv' hw => h wv' (List.mem_cons_of_mem wv hw)
    show ((d.setPix wv.1.1 wv.1.2 wv.2).applyWrites t).pix x y = d.pix x y
    rw [ih _ x y ht]
    show (if x = wv.1.1 ∧ y = wv.1.2 then wv.2 else d.pix x y) = d.pix x y
    rw [if_neg]
    rintro ⟨rfl, rfl⟩
    exact hne rfl

/-- A coordinate all of whose writes carry the same value ends up with that
value, provided it is written at least once. -/
theorem applyWrites_pix_of_mem :
    ∀ (ws : List ((ℕ × ℕ) × P)) (d : ImageF P) (x y : ℕ) (v : P),
      ((x, y), v) ∈ ws → (∀ v', ((x, y), v') ∈ ws → v' = v) →
      (d.applyWrites ws).pix x y = v := by
  intro ws
  induction ws with
  | nil => intro d x y v hmem _; exact absurd hmem (List.not_mem_nil _)
  | cons wv t ih =>
    intro d x y v hmem huniq
    by_cases hmt : ∃ v', ((x, y), v') ∈ t
    · obtain ⟨v', hv'⟩ := hmt
      have hv'v : v' = v := huniq v' (List.mem_cons_of_mem wv hv')
      subst hv'v
      exact ih _ x y v' hv' fun u hu => huniq u (List.mem_cons_of_mem wv hu)
    · push_neg at hmt
      have hwv : wv = ((x, y), v) := by
        rcases List.mem_cons.mp hmem with h | h
        · exact h.symm
        · exact absurd h (hmt v)
      subst hwv
      show ((d.setPix x y v).applyWrites t).pix x y = v
      rw [applyWrites_pix_of_not_mem t _ x y]
      · show (if x = x ∧ y = y then v else d.pix x y) = v
        rw [if_pos ⟨rfl, rfl⟩]
      · intro wv' hw' heq
        have hrw : ((x, y), wv'.2) = wv' := by rw [← heq]
        exact hmt wv'.2 (by rw [hrw]; exact hw')

/-- Membership in the double write loop. -/
theorem mem_writeLoop {w h x1 y1 : ℕ} {f : ℕ → ℕ → P} {c : (ℕ × ℕ) × P} :
    c ∈ writeLoop w h x1 y1 f ↔
      ∃ i, i < h ∧ ∃ j, j < w ∧ ((x1 + j, y1 + i), f j i) = c := by
  simp [writeLoop]

/-- In-box pixels of the double write loop take the loop's value. -/
theorem applyWrites_writeLoop_pix (d : ImageF P) (f : ℕ → ℕ → P)
    {w h x1 y1 j i : ℕ} (hj : j < w) (hi : i < h) :
    (d.applyWrites (writeLoop w h x1 y1 f)).pix (x1 + j) (y1 + i) = f j i := by
  apply applyWrites_pix_of_mem
  · exact mem_writeLoop.mpr ⟨i, hi, j, hj, rfl⟩
  · intro v' hv'
    obtain ⟨i', _, j', _, heq⟩ := mem_writeLoop.mp hv'
    simp only [Prod.mk.injEq] at heq
    obtain ⟨⟨hx, hy⟩, hval⟩ := heq
    have hj' : j' = j := by omega
    have hi' : i' = i := by omega
    rw [← hval, hj', hi']

/-- Pixels outside the loop's box are unchanged. -/
theorem applyWrites_writeLoop_outside (d : ImageF P) (f : ℕ → ℕ → P)
    {w h x1 y1 x y : ℕ} (hout : x < x1 ∨ x1 + w ≤ x ∨ y < y1 ∨ y1 + h ≤ y) :
    (d.applyWrites (writeLoop w h x1 y1 f)).pix x y = d.pix x y := by
  apply applyWrites_pix_of_not_mem
  intro wv hwv
  obtain ⟨i, hi, j, hj, heq⟩ := mem_writeLoop.mp hwv
  rw [← heq]
  intro hc
  simp only [Prod.mk.injEq] at hc
  omega

/-- The loop extent `(x1 + w) % 2^32 - x1` never exceeds `w`. -/
theorem loopExtent_le (x1 w : ℕ) : (x1 + w) % U32M - x1 ≤ w := by
  have := Nat.mod_le (x1 + w) U32M
  omega

/-- Without `u32` wrap-around, the loop extent is exactly `w`. -/
theorem loopExtent_eq (x1 w : ℕ) (h : x1 + w < U32M) : (x1 + w) % U32M - x1 = w := by
  rw [Nat.mod_eq_of_lt h]
  omega

end WriteHelpers

/-- A 1×1 source image holding the maximum 8-bit pixel. -/
def imgMax1 : ImageF (Fin 256) := constImg (Fin 256) 1 1 255

/-- A 4×4 destination image holding the pixel value 7 everywhere. -/
def destC : ImageF (Fin 256) := constImg (Fin 256) 4 4 7

/-- A 1×1 RGBA image with alpha 5. -/
def imgRgba0 : ImageF Rgba := constImg Rgba 1 1 ⟨0, 0, 0, 5⟩

/-- An arbitrary fill color. -/
def rgba0 : Rgba := ⟨1, 2, 3, 4⟩

/-- Claim C10: `Dilation::draw` and `Erosion::draw` write only destination
pixels whose coordinates lie in the box `[position, position +
source_dimensions)`; every destination pixel outside that box is unchanged by
the call. -/
theorem c10_draw_frame {P : Type} (ops : PixelOps P) (src : ImageF P)
    (kernel : KernelImage) (x1 y1 : ℕ) (qa qb : ℚ) (dest : ImageF P) (x y : ℕ)
    (hout : x < x1 ∨ x1 + src.width ≤ x ∨ y < y1 ∨ y1 + src.height ≤ y) :
    (Erosion.draw ops ⟨src, kernel, (x1, y1), (qa, qb)⟩ dest).pix x y = dest.pix x y ∧
    (Dilation.draw ops ⟨src, kernel, (x1, y1), (qa, qb)⟩ dest).pix x y = dest.pix x y := by
  have hw := loopExtent_le x1 src.width
  have hh := loopExtent_le y1 src.height
  refine ⟨?_, ?_⟩
  · show (dest.applyWrites (writeLoop ((x1 + src.width) % U32M - x1)
      ((y1 + src.height) % U32M - y1) x1 y1 _)).pix x y = dest.pix x y
    exact applyWrites_writeLoop_outside dest _ (by omega)
  · show (dest.applyWrites (writeLoop ((x1 + src.width) % U32M - x1)
      ((y1 + src.height) % U32M - y1) x1 y1 _)).pix x y = dest.pix x y
    exact applyWrites_writeLoop_outside dest _ (by omega)

/-- Witness for C10 at a concrete out-of-box coordinate. -/
theorem c10_draw_frame_witness :
    ((5:ℕ) < 0 ∨ 0 + imgMax1.width ≤ 5 ∨ (5:ℕ) < 0 ∨ 0 + imgMax1.height ≤ 5) ∧
    (Erosion.draw opsU8 ⟨imgMax1, fromShapeRect 3 3, (0, 0), (mkRat 1 2, mkRat 1 2)⟩ destC).pix 5 5 =
      destC.pix 5 5 ∧
    (Dilation.draw opsU8 ⟨imgMax1, fromShapeRect 3 3, (0, 0), (mkRat 1 2, mkRat 1 2)⟩ destC).pix 5 5 =
      destC.pix 5 5 :=
  ⟨by decide,
    (c10_draw_frame opsU8 imgMax1 (fromShapeRect 3 3) 0 0 (mkRat 1 2) (mkRat 1 2) destC 5 5 (by decide)).1,
    (c10_draw_frame opsU8 imgMax1 (fromShapeRect 3 3) 0 0 (mkRat 1 2) (mkRat 1 2) destC 5 5 (by decide)).2⟩

/-- Counterexample to claim C3 as stated: on a fresh 2×2 kernel,
`get_pixel(2, 0)` has `x ≥ width` yet returns a weight — the flat index
`0*2 + 2 = 2` is still inside the buffer (it addresses cell `(0, 1)` of the
next row), so `get_pixel` does return a weight for an out-of-range coordinate. -/
theorem c3_get_pixel_counterexample :
    KernelImage.getPixel (KernelImage.new 2 2) 2 0 = some 0 ∧
      ¬ 2 < (KernelImage.new 2 2).width := by
  exact ⟨by decide, by decide⟩

/-- Claim C3 (amended): `get_pixel(x, y)` returns `None` exactly when the
wrapped flat index `y*width + x` falls outside the buffer; for coordinates in
range on both axes it returns the weight stored at cell `(x, y)`; but a
coordinate with `x ≥ width` whose flat index still lands inside the buffer
also returns a weight (belonging to a cell of a later row). -/
theorem c3_get_pixel_flat (k : KernelImage) (x y : ℕ) :
    (k.getPixel x y = none ↔ k.data.length ≤ (y * k.width + x) % U32M) ∧
    (x < k.width → y < k.height → k.data.length = k.width * k.height →
      k.width * k.height < U32M → k.getPixel x y = k.data[y * k.width + x]?) := by
  constructor
  · show k.data[(y * k.width + x) % U32M]? = none ↔ _
    exact List.getElem?_eq_none_iff
  · intro hx hy _ hsz
    have hlt : y * k.width + x < k.width * k.height := by
      have h1 : (y + 1) * k.width ≤ k.height * k.width := Nat.mul_le_mul_right _ hy
      have h2 : y * k.width + x < (y + 1) * k.width := by
        rw [Nat.succ_mul]; omega
      rw [Nat.mul_comm k.width k.height]; omega
    show k.data[(y * k.width + x) % U32M]? = k.data[y * k.width + x]?
    rw [Nat.mod_eq_of_lt (Nat.lt_trans hlt hsz)]

/-- Witness for the amended C3 on a concrete in-range coordinate. -/
theorem c3_get_pixel_flat_witness :
    (1:ℕ) < (KernelImage.new 3 3).width ∧
      KernelImage.getPixel (KernelImage.new 3 3) 1 2 = (KernelImage.new 3 3).data[2 * 3 + 1]? :=
  ⟨by decide,
    (c3_get_pixel_flat (KernelImage.new 3 3) 1 2).2 (by decide) (by decide) (by decide) (by decide)⟩

/-- Claim C6: `from_shape` with `EllipseAa` is only safe for `width ≥ 2` and
`height ≥ 2`: the anti-aliased branch's semi-axis numerator `dim - 2` is the
plain difference exactly when `2 ≤ dim` and underflows otherwise; and
`Stroke::draw` with the minimum clamped size `1` builds a 1×1 `EllipseAa`
kernel, whose subtraction `1 - 2` underflows (wrapping to `2^32 - 1`). -/
theorem c6_ellipse_aa_underflow :
    (∀ (img : ImageF Rgba) (c : Rgba) (size : ℕ), size ≤ 1 →
      (Stroke.new img size c).kSize = 1) ∧
    aaAxisNum 1 = U32M - 1 ∧
    (∀ w, w < U32M → (aaAxisNum w = w - 2 ↔ 2 ≤ w)) := by
  have hU : U32M = 4294967296 := rfl
  refine ⟨fun img c size hs => ?_, by decide, fun w hw => ?_⟩
  · have hmax : max size 1 = 1 := by omega
    show wsub (((max size 1) * 2) % U32M) 1 = 1
    rw [hmax]
    decide
  · show (U32M + w - 2) % U32M = w - 2 ↔ 2 ≤ w
    rcases Nat.lt_or_ge w 2 with h2 | h2
    · rw [Nat.mod_eq_of_lt (by omega)]
      constructor
      · intro he; omega
      · intro he; omega
    · rw [show U32M + w - 2 = (w - 2) + U32M by omega, Nat.add_mod_right,
        Nat.mod_eq_of_lt (by omega)]
      simp [h2]

/-- Witness for C6 at the minimum stroke size and a safe width. -/
theorem c6_ellipse_aa_underflow_witness :
    (1:ℕ) ≤ 1 ∧ (Stroke.new imgRgba0 1 rgba0).kSize = 1 ∧ aaAxisNum 5 = 5 - 2 :=
  ⟨by decide, c6_ellipse_aa_underflow.1 imgRgba0 rgba0 1 (by decide),
    (c6_ellipse_aa_underflow.2.2 5 (by decide)).mpr (by decide)⟩

/-- Claim C8: the binarisation step of `Stroke::draw` maps every alpha sample
strictly greater than the stroke's threshold to full-scale 255, and to 0
otherwise; in particular a sample equal to the threshold becomes 0. -/
theorem c8_stroke_binarize (s : Stroke) (x y : ℕ) :
    (s.threshold < s.alpha.pix x y → s.binarized.pix x y = 255) ∧
    (s.alpha.pix x y ≤ s.threshold → s.binarized.pix x y = 0) ∧
    (s.alpha.pix x y = s.threshold → s.binarized.pix x y = 0) := by
  refine ⟨fun h => ?_, fun h => ?_, fun h => ?_⟩ <;>
    show (if s.threshold < s.alpha.pix x y then 255 else 0) = _
  · rw [if_pos h]
  · rw [if_neg (by omega)]
  · rw [if_neg (by omega)]

section PixelRefinement

variable {P : Type}

/-- The kernel cells in the loop order of `draw`: rows outer, columns inner. -/
def kernelCells (kw kh : ℕ) : List (ℕ × ℕ) :=
  (List.range kh).flatMap (fun ky => (List.range kw).map (fun kx => (kx, ky)))

/-- Membership in the kernel cell list. -/
theorem mem_kernelCells {kw kh : ℕ} {c : ℕ × ℕ} :
    c ∈ kernelCells kw kh ↔ c.1 < kw ∧ c.2 < kh := by
  unfold kernelCells
  simp only [List.mem_flatMap, List.mem_map, List.mem_range]
  constructor
  · rintro ⟨ky, hky, kx, hkx, rfl⟩
    exact ⟨hkx, hky⟩
  · rintro ⟨h1, h2⟩
    exact ⟨c.2, h2, c.1, h1, rfl⟩

/-- A nested fold over the row and column ranges is the fold over the cell
list. -/
theorem foldl_nested_ranges (g : P → ℕ × ℕ → P) (kw kh : ℕ) (m : P) :
    (List.range kh).foldl (fun m ky =>
        (List.range kw).foldl (fun m kx => g m (kx, ky)) m) m =
      (kernelCells kw kh).foldl g m := by
  unfold kernelCells
  generalize List.range kh = l
  induction l generalizing m with
  | nil => rfl
  | cons ky t ih =>
    rw [List.foldl_cons, List.flatMap_cons, List.foldl_append, ih, List.foldl_map]

/-- The step of the erosion per-pixel loop as a selection: a cell is selected
when its weight exists and is strictly positive and both checked subtractions
succeed; the selected value is the tap's contribution. -/
def erosionCodeSel (ops : PixelOps P) (src : ImageF P) (kernel : KernelImage)
    (ax ay x y : ℕ) (c : ℕ × ℕ) : Option P :=
  match kernel.getPixel c.1 c.2 with
  | none => none
  | some k =>
    if ¬ 0 < k then none
    else
      match checkedSub ((x + c.1) % U32M) ax, checkedSub ((y + c.2) % U32M) ay with
      | some sx, some sy =>
          some (((src.getPixel sx sy).map (fun p => ops.pscale p k)).getD ops.pdefault)
      | _, _ => none

/-- The step of the dilation per-pixel loop as a selection: no weight
positivity test. -/
def dilationCodeSel (ops : PixelOps P) (src : ImageF P) (kernel : KernelImage)
    (ax ay x y : ℕ) (c : ℕ × ℕ) : Option P :=
  match kernel.getPixel c.1 c.2 with
  | none => none
  | some k =>
    match checkedSub ((x + c.1) % U32M) ax, checkedSub ((y + c.2) % U32M) ay with
    | some sx, some sy =>
        some (((src.getPixel sx sy).map (fun p => ops.pscale p k)).getD ops.pdefault)
    | _, _ => none

/-- The value a tap contributes to the erosion minimum: the scaled source
sample when the sample coordinate is in bounds, `P::default()` otherwise. -/
def erosionTapVal (ops : PixelOps P) (src : ImageF P) (k : ℚ) (sx sy : ℕ) : P :=
  if sx < src.width ∧ sy < src.height then ops.pscale (src.pix sx sy) k else ops.pdefault

/-- Claim C1 (amended), selection form: a tap participates when its weight is
strictly positive and its sample coordinate is non-negative; an in-bounds tap
contributes the scaled sample, an out-of-bounds one contributes
`P::default()`. -/
def erosionAmendedSel (ops : PixelOps P) (src : ImageF P) (kernel : KernelImage)
    (ax ay x y : ℕ) (c : ℕ × ℕ) : Option P :=
  match checkedSub ((x + c.1) % U32M) ax, checkedSub ((y + c.2) % U32M) ay with
  | some sx, some sy =>
      if 0 < kernel.pixelD c.1 c.2 then
        some (erosionTapVal ops src (kernel.pixelD c.1 c.2) sx sy)
      else none
  | _, _ => none

/-- Claim C1 (amended): the written erosion pixel is the minimum, started from
the complement of `P::default()`, over the positive-weight non-negative taps,
valued as in `erosionAmendedSel`. -/
def erosionAmendedPixel (ops : PixelOps P) (src : ImageF P) (kernel : KernelImage)
    (ax ay x y : ℕ) : P :=
  ((kernelCells kernel.width kernel.height).filterMap
      (erosionAmendedSel ops src kernel ax ay x y)).foldl
    ops.pmin (ops.pcompl ops.pdefault)

/-- Claim C1 as stated: the minimum over only the in-bounds positive-weight
taps (out-of-bounds taps skipped as neutral), starting from the complement of
`P::default()`. -/
def erosionClaimSel (ops : PixelOps P) (src : ImageF P) (kernel : KernelImage)
    (ax ay x y : ℕ) (c : ℕ × ℕ) : Option P :=
  match checkedSub ((x + c.1) % U32M) ax, checkedSub ((y + c.2) % U32M) ay with
  | some sx, some sy =>
      if 0 < kernel.pixelD c.1 c.2 ∧ sx < src.width ∧ sy < src.height then
        some (ops.pscale (src.pix sx sy) (kernel.pixelD c.1 c.2))
      else none
  | _, _ => none

/-- The output pixel claim C1 predicts. -/
def erosionClaimPixel (ops : PixelOps P) (src : ImageF P) (kernel : KernelImage)
    (ax ay x y : ℕ) : P :=
  ((kernelCells kernel.width kernel.height).filterMap
      (erosionClaimSel ops src kernel ax ay x y)).foldl
    ops.pmin (ops.pcompl ops.pdefault)

/-- Claim C4, selection form: every kernel cell whose sample coordinate is
non-negative and within source bounds contributes its scaled sample; all other
taps contribute nothing. -/
def dilationSpecSel (ops : PixelOps P) (src : ImageF P) (kernel : KernelImage)
    (ax ay x y : ℕ) (c : ℕ × ℕ) : Option P :=
  match checkedSub ((x + c.1) % U32M) ax, checkedSub ((y + c.2) % U32M) ay with
  | some sx, some sy =>
      if sx < src.width ∧ sy < src.height then
        some (ops.pscale (src.pix sx sy) (kernel.pixelD c.1 c.2))
      else none
  | _, _ => none

/-- The output pixel claim C4 describes: the maximum of the contributing taps,
starting from the pixel-algebra neutral minimum `P::default()`. -/
def dilationSpecPixel (ops : PixelOps P) (src : ImageF P) (kernel : KernelImage)
    (ax ay x y : ℕ) : P :=
  ((kernelCells kernel.width kernel.height).filterMap
      (dilationSpecSel ops src kernel ax ay x y)).foldl
    ops.pmax ops.pdefault

/-- The erosion per-pixel loop is the fold of its selected taps. -/
theorem erosionPixel_eq_filterMap (ops : PixelOps P) (src : ImageF P)
    (kernel : KernelImage) (ax ay x y : ℕ) :
    erosionPixel ops src kernel ax ay x y =
      ((kernelCells kernel.width kernel.height).filterMap
          (erosionCodeSel ops src kernel ax ay x y)).foldl
        ops.pmin (ops.pcompl ops.pdefault) := by
  unfold erosionPixel
  rw [foldl_nested_ranges (erosionStep ops src kernel ax ay x y)
    kernel.width kernel.height (ops.pcompl ops.pdefault)]
  apply foldl_step_eq_foldl_filterMap
  intro m c
  unfold erosionStep erosionCodeSel
  cases hk : kernel.getPixel c.1 c.2 with
  | none => simp
  | some k =>
    by_cases hpos : 0 < k
    · cases hsx : checkedSub ((x + c.1) % U32M) ax with
      | none => simp [hpos, hsx]
      | some sx =>
        cases hsy : checkedSub ((y + c.2) % U32M) ay with
        | none => simp [hpos, hsx, hsy]
        | some sy => simp [hpos, hsx, hsy]
    · simp [hpos]

/-- The dilation per-pixel loop is the fold of its selected taps. -/
theorem dilationPixel_eq_filterMap (ops : PixelOps P) (src : ImageF P)
    (kernel : KernelImage) (ax ay x y : ℕ) :
    dilationPixel ops src kernel ax ay x y =
      ((kernelCells kernel.width kernel.height).filterMap
          (dilationCodeSel ops src kernel ax ay x y)).foldl
        ops.pmax ops.pdefault := by
  unfold dilationPixel
  rw [foldl_nested_ranges (dilationStep ops src kernel ax ay x y)
    kernel.width kernel.height ops.pdefault]
  apply foldl_step_eq_foldl_filterMap
  intro m c
  unfold dilationStep dilationCodeSel
  cases hk : kernel.getPixel c.1 c.2 with
  | none => simp
  | some k =>
    cases hsx : checkedSub ((x + c.1) % U32M) ax with
    | none => simp [hsx]
    | some sx =>
      cases hsy : checkedSub ((y + c.2) % U32M) ay with
      | none => simp [hsx, hsy]
      | some sy => simp [hsx, hsy]

/-- In a well-formed kernel the safe probe returns the stored weight. -/
theorem getPixel_eq_pixelD (k : KernelImage)
    (hlen : k.data.length = k.width * k.height) (hsz : k.width * k.height < U32M)
    {x y : ℕ} (hx : x < k.width) (hy : y < k.height) :
    k.getPixel x y = some (k.pixelD x y) := by
  have hlt : y * k.width + x < k.width * k.height := by
    have h1 : (y + 1) * k.width ≤ k.height * k.width := Nat.mul_le_mul_right _ hy
    have h2 : y * k.width + x < (y + 1) * k.width := by rw [Nat.succ_mul]; omega
    rw [Nat.mul_comm k.width k.height]; omega
  have hmod : (y * k.width + x) % U32M = y * k.width + x :=
    Nat.mod_eq_of_lt (Nat.lt_trans hlt hsz)
  have hidx : (y * k.width + x) % U32M < k.data.length := by omega
  show k.data[(y * k.width + x) % U32M]? =
    some ((k.data[(y * k.width + x) % U32M]?).getD 0)
  rw [List.getElem?_eq_getElem hidx]
  rfl

/-- The map-and-default of the source probe is the tap value. -/
theorem tapVal_eq (ops : PixelOps P) (src : ImageF P) (k : ℚ) (sx sy : ℕ) :
    ((src.getPixel sx sy).map (fun p => ops.pscale p k)).getD ops.pdefault =
      erosionTapVal ops src k sx sy := by
  unfold ImageF.getPixel erosionTapVal
  by_cases h : sx < src.width ∧ sy < src.height <;> simp [h]

/-- On a well-formed kernel, the erosion loop's selection coincides with the
amended claim's selection. -/
theorem erosionCodeSel_eq_amended (ops : PixelOps P) (src : ImageF P)
    (kernel : KernelImage) (ax ay x y : ℕ)
    (hlen : kernel.data.length = kernel.width * kernel.height)
    (hsz : kernel.width * kernel.height < U32M)
    (c : ℕ × ℕ) (hc1 : c.1 < kernel.width) (hc2 : c.2 < kernel.height) :
    erosionCodeSel ops src kernel ax ay x y c =
      erosionAmendedSel ops src kernel ax ay x y c := by
  unfold erosionCodeSel erosionAmendedSel
  rw [getPixel_eq_pixelD kernel hlen hsz hc1 hc2]
  by_cases hpos : 0 < kernel.pixelD c.1 c.2
  · cases hsx : checkedSub ((x + c.1) % U32M) ax with
    | none => simp [hpos, hsx]
    | some sx =>
      cases hsy : checkedSub ((y + c.2) % U32M) ay with
      | none => simp [hpos, hsx, hsy]
      | some sy => simp [hpos, hsx, hsy, tapVal_eq]
  · cases hsx : checkedSub ((x + c.1) % U32M) ax with
    | none => simp [hpos, hsx]
    | some sx =>
      cases hsy : checkedSub ((y + c.2) % U32M) ay with
      | none => simp [hpos, hsx, hsy]
      | some sy => simp [hpos, hsx, hsy]

/-- On a well-formed kernel, the dilation loop's selection either coincides
with claim C4's selection or selects the neutral minimum where the claim
selects nothing (an out-of-bounds sample). -/
theorem dilationCodeSel_rel (ops : PixelOps P) (src : ImageF P)
    (kernel : KernelImage) (ax ay x y : ℕ)
    (hlen : kernel.data.length = kernel.width * kernel.height)
    (hsz : kernel.width * kernel.height < U32M)
    (c : ℕ × ℕ) (hc1 : c.1 < kernel.width) (hc2 : c.2 < kernel.height) :
    dilationCodeSel ops src kernel ax ay x y c =
        dilationSpecSel ops src kernel ax ay x y c ∨
      (dilationCodeSel ops src kernel ax ay x y c = some ops.pdefault ∧
        dilationSpecSel ops src kernel ax ay x y c = none) := by
  unfold dilationCodeSel dilationSpecSel
  rw [getPixel_eq_pixelD kernel hlen hsz hc1 hc2]
  cases hsx : checkedSub ((x + c.1) % U32M) ax with
  | none => left; simp [hsx]
  | some sx =>
    cases hsy : checkedSub ((y + c.2) % U32M) ay with
    | none => left; simp [hsx, hsy]
    | some sy =>
      by_cases hb : sx < src.width ∧ sy < src.height
      · left; simp [hsx, hsy, hb, ImageF.getPixel]
      · right; simp [hsx, hsy, hb, ImageF.getPixel]

/-- `Erosion::draw` writes `d(j, i)` at in-box coordinate
`(x1 + j, y1 + i)` when the loop ranges do not wrap. -/
theorem erosionDraw_pix (ops : PixelOps P) (src : ImageF P) (kernel : KernelImage)
    (x1 y1 : ℕ) (qa qb : ℚ) (dest : ImageF P)
    (hxw : x1 + src.width < U32M) (hyh : y1 + src.height < U32M)
    {j i : ℕ} (hj : j < src.width) (hi : i < src.height) :
    (Erosion.draw ops ⟨src, kernel, (x1, y1), (qa, qb)⟩ dest).pix (x1 + j) (y1 + i) =
      erosionPixel ops src kernel (anchorOffset kernel.width qa)
        (anchorOffset kernel.height qb) j i := by
  show (dest.applyWrites (writeLoop ((x1 + src.width) % U32M - x1)
      ((y1 + src.height) % U32M - y1) x1 y1 _)).pix (x1 + j) (y1 + i) = _
  rw [loopExtent_eq _ _ hxw, loopExtent_eq _ _ hyh]
  exact applyWrites_writeLoop_pix dest _ hj hi

/-- `Dilation::draw` writes `d(j, i)` at in-box coordinate
`(x1 + j, y1 + i)` when the loop ranges do not wrap. -/
theorem dilationDraw_pix (ops : PixelOps P) (src : ImageF P) (kernel : KernelImage)
    (x1 y1 : ℕ) (qa qb : ℚ) (dest : ImageF P)
    (hxw : x1 + src.width < U32M) (hyh : y1 + src.height < U32M)
    {j i : ℕ} (hj : j < src.width) (hi : i < src.height) :
    (Dilation.draw ops ⟨src, kernel, (x1, y1), (qa, qb)⟩ dest).pix (x1 + j) (y1 + i) =
      dilationPixel ops src kernel (anchorOffset kernel.width qa)
        (anchorOffset kernel.height qb) j i := by
  show (dest.applyWrites (writeLoop ((x1 + src.width) % U32M - x1)
      ((y1 + src.height) % U32M - y1) x1 y1 _)).pix (x1 + j) (y1 + i) = _
  rw [loopExtent_eq _ _ hxw, loopExtent_eq _ _ hyh]
  exact applyWrites_writeLoop_pix dest _ hj hi

end PixelRefinement

/-- Counterexample to claim C1 as stated: eroding the 1×1 maximum-valued image
with the all-ones 3×3 kernel (center anchor), the tap at kernel cell `(2, 1)`
has positive weight and non-negative sample coordinate `(1, 0)`, which is
outside the 1×1 source; the code turns it into `P::default()` and `min`s it in,
so the written pixel is `0`, while the claim's minimum over only the in-bounds
positive-weight taps is `255`. -/
theorem c1_erosion_counterexample :
    (Erosion.draw opsU8 (Erosion.new imgMax1 (fromShapeRect 3 3)) destC).pix 0 0 = 0 ∧
    erosionClaimPixel opsU8 imgMax1 (fromShapeRect 3 3) 1 1 0 0 = 255 ∧
    (0 : Fin 256) ≠ 255 :=
  ⟨by decide, by decide, by decide⟩

/-- Claim C1 (amended): in `Erosion::draw`, a tap with positive weight and
non-negative sample coordinate that is out of source bounds is NOT skipped: it
contributes `P::default()` to the running minimum.  The written pixel at every
in-box destination coordinate is the minimum, started from the complement of
`P::default()`, over all positive-weight non-negative taps, valued
`source[sx,sy] * weight` in bounds and `P::default()` out of bounds (the
neutral maximum when no such tap exists). -/
theorem c1_erosion_oob_default {P : Type} (ops : PixelOps P) (src : ImageF P)
    (kernel : KernelImage) (x1 y1 : ℕ) (qa qb : ℚ) (dest : ImageF P)
    (hlen : kernel.data.length = kernel.width * kernel.height)
    (hsz : kernel.width * kernel.height < U32M)
    (hxw : x1 + src.width < U32M) (hyh : y1 + src.height < U32M)
    (j i : ℕ) (hj : j < src.width) (hi : i < src.height) :
    (Erosion.draw ops ⟨src, kernel, (x1, y1), (qa, qb)⟩ dest).pix (x1 + j) (y1 + i) =
      erosionAmendedPixel ops src kernel (anchorOffset kernel.width qa)
        (anchorOffset kernel.height qb) j i := by
  rw [erosionDraw_pix ops src kernel x1 y1 qa qb dest hxw hyh hj hi,
    erosionPixel_eq_filterMap]
  unfold erosionAmendedPixel
  congr 1
  apply List.filterMap_congr
  intro c hc
  obtain ⟨h1, h2⟩ := mem_kernelCells.mp hc
  exact erosionCodeSel_eq_amended _ _ _ _ _ _ _ hlen hsz c h1 h2

/-- Witness for the amended C1 at the concrete counterexample configuration. -/
theorem c1_erosion_oob_default_witness :
    (fromShapeRect 3 3).data.length =
        (fromShapeRect 3 3).width * (fromShapeRect 3 3).height ∧
    (Erosion.draw opsU8 ⟨imgMax1, fromShapeRect 3 3, (0, 0), (mkRat 1 2, mkRat 1 2)⟩ destC).pix (0 + 0) (0 + 0) =
      erosionAmendedPixel opsU8 imgMax1 (fromShapeRect 3 3)
        (anchorOffset (fromShapeRect 3 3).width (mkRat 1 2))
        (anchorOffset (fromShapeRect 3 3).height (mkRat 1 2)) 0 0 :=
  ⟨by decide,
    c1_erosion_oob_default opsU8 imgMax1 (fromShapeRect 3 3) 0 0 (mkRat 1 2) (mkRat 1 2) destC
      (by decide) (by decide) (by decide) (by decide) 0 0 (by decide) (by decide)⟩

/-- Claim C4: in `Dilation::draw`, the written pixel at every in-box
destination coordinate is the component-wise maximum, starting from the
pixel-algebra neutral minimum `P::default()`, of `source[sx,sy] * kernel[kx,ky]`
over all kernel cells whose sample coordinate
`(sx, sy) = (j, i) + (kx, ky) - anchor_offset` is non-negative and within
source bounds; taps with negative or out-of-bounds sample coordinates
contribute nothing (`P::default()` being neutral for the maximum). -/
theorem c4_dilation_pixel_spec {P : Type} (ops : PixelOps P)
    (hbot : ∀ p, ops.pmax p ops.pdefault = p)
    (src : ImageF P) (kernel : KernelImage) (x1 y1 : ℕ) (qa qb : ℚ) (dest : ImageF P)
    (hlen : kernel.data.length = kernel.width * kernel.height)
    (hsz : kernel.width * kernel.height < U32M)
    (hxw : x1 + src.width < U32M) (hyh : y1 + src.height < U32M)
    (j i : ℕ) (hj : j < src.width) (hi : i < src.height) :
    (Dilation.draw ops ⟨src, kernel, (x1, y1), (qa, qb)⟩ dest).pix (x1 + j) (y1 + i) =
      dilationSpecPixel ops src kernel (anchorOffset kernel.width qa)
        (anchorOffset kernel.height qb) j i := by
  rw [dilationDraw_pix ops src kernel x1 y1 qa qb dest hxw hyh hj hi,
    dilationPixel_eq_filterMap]
  unfold dilationSpecPixel
  apply foldl_filterMap_congr_of_neutral _ _ ops.pmax ops.pdefault hbot
  intro c hc
  obtain ⟨h1, h2⟩ := mem_kernelCells.mp hc
  exact dilationCodeSel_rel _ _ _ _ _ _ _ hlen hsz c h1 h2

/-- The flat row-major index of an in-bounds cell is inside the buffer. -/
theorem flatIdx_lt {w h x y : ℕ} (hx : x < w) (hy : y < h) : y * w + x < w * h := by
  have h1 : (y + 1) * w ≤ h * w := Nat.mul_le_mul_right _ hy
  have h2 : y * w + x < (y + 1) * w := by rw [Nat.succ_mul]; omega
  rw [Nat.mul_comm w h]; omega

/-- The `Rect` fill loop preserves the buffer length. -/
theorem range_foldl_set_length :
    ∀ (l : List ℕ) (d : List ℚ), (l.foldl (fun d i => d.set i (1:ℚ)) d).length = d.length := by
  intro l
  induction l with
  | nil => intro d; rfl
  | cons a t ih => intro d; rw [List.foldl_cons, ih, List.length_set]

/-- Pointwise description of the `Rect` fill loop. -/
theorem range_foldl_set_getElem (n : ℕ) :
    ∀ (d : List ℚ) (j : ℕ),
      ((List.range n).foldl (fun d i => d.set i (1:ℚ)) d)[j]? =
        if j < n ∧ j < d.length then some 1 else d[j]? := by
  induction n with
  | zero =>
    intro d j
    simp
  | succ n ih =>
    intro d j
    rw [List.range_succ, List.foldl_append, List.foldl_cons, List.foldl_nil,
      List.getElem?_set, range_foldl_set_length]
    by_cases hnj : n = j
    · subst hnj
      rw [if_pos rfl]
      by_cases hd : n < d.length
      · rw [if_pos hd, if_pos ⟨by omega, hd⟩]
      · rw [if_neg hd, if_neg (by omega), List.getElem?_eq_none (by omega)]
    · rw [if_neg hnj, ih]
      by_cases hc : j < n ∧ j < d.length
      · rw [if_pos hc, if_pos ⟨by omega, hc.2⟩]
      · rw [if_neg hc, if_neg (by omega)]

/-- Every in-bounds cell of a `Rect` kernel holds weight `1.0`. -/
theorem fromShapeRect_getPixel {w h : ℕ} (hsz : w * h < U32M) {x y : ℕ}
    (hx : x < w) (hy : y < h) :
    (fromShapeRect w h).getPixel x y = some 1 := by
  have hidx : y * w + x < w * h := flatIdx_lt hx hy
  have hmod : (y * w + x) % U32M = y * w + x := Nat.mod_eq_of_lt (by omega)
  have hlen : ((w * h) % U32M) = w * h := Nat.mod_eq_of_lt hsz
  show ((List.range (List.replicate ((w * h) % U32M) (0:ℚ)).length).foldl
      (fun d i => d.set i (1:ℚ)) (List.replicate ((w * h) % U32M) 0))[(y * w + x) % U32M]? = some 1
  rw [range_foldl_set_getElem, List.length_replicate, hmod, hlen]
  rw [if_pos ⟨hidx, hidx⟩]

/-- The buffer length of a `Rect` kernel. -/
theorem fromShapeRect_length (w h : ℕ) :
    (fromShapeRect w h).data.length = (w * h) % U32M := by
  show ((List.range (List.replicate ((w * h) % U32M) (0:ℚ)).length).foldl
      (fun d i => d.set i (1:ℚ)) (List.replicate ((w * h) % U32M) 0)).length = (w * h) % U32M
  rw [range_foldl_set_length, List.length_replicate]

/-- The anchor offset of the default center anchor is the half dimension. -/
theorem anchorOffset_half (n : ℕ) : anchorOffset n (mkRat 1 2) = n / 2 := by
  have hnum : (mkRat 1 2).num = 1 := by decide
  have hden : ((mkRat 1 2).den : ℤ) = 2 := by decide
  unfold anchorOffset
  rw [hnum, hden, Int.mul_one, Int.fdiv_eq_ediv _ (by omega)]
  omega

set_option maxRecDepth 100000 in
/-- Witness for C4 on a concrete dilation. -/
theorem c4_dilation_pixel_spec_witness :
    (∀ p : Fin 256, opsU8.pmax p opsU8.pdefault = p) ∧
    (Dilation.draw opsU8 ⟨imgMax1, fromShapeRect 3 3, (0, 0), (mkRat 1 2, mkRat 1 2)⟩ destC).pix (0 + 0) (0 + 0) =
      dilationSpecPixel opsU8 imgMax1 (fromShapeRect 3 3)
        (anchorOffset (fromShapeRect 3 3).width (mkRat 1 2))
        (anchorOffset (fromShapeRect 3 3).height (mkRat 1 2)) 0 0 :=
  ⟨by decide,
    c4_dilation_pixel_spec opsU8 (by decide) imgMax1 (fromShapeRect 3 3) 0 0 (mkRat 1 2) (mkRat 1 2) destC
      (by decide) (by decide) (by decide) (by decide) 0 0 (by decide) (by decide)⟩

/-- A successful checked subtraction. -/
theorem checkedSub_eq_some {a b : ℕ} (h : b ≤ a) : checkedSub a b = some (a - b) := by
  unfold checkedSub
  rw [if_pos h]

/-- A failed (underflowing) checked subtraction. -/
theorem checkedSub_eq_none {a b : ℕ} (h : ¬ b ≤ a) : checkedSub a b = none := by
  unfold checkedSub
  rw [if_neg h]

/-- A fold by an operation that absorbs to `e` on either side yields `e`
whenever `e` occurs in the list. -/
theorem foldl_absorb {P : Type _} (f : P → P → P) (e : P)
    (habs1 : ∀ m, f m e = e) (habs2 : ∀ v, f e v = e) :
    ∀ (l : List P) (init : P), e ∈ l → l.foldl f init = e := by
  have aux : ∀ l : List P, l.foldl f e = e := by
    intro l
    induction l with
    | nil => rfl
    | cons a t ih => rw [List.foldl_cons, habs2, ih]
  intro l
  induction l with
  | nil => intro init hmem; exact absurd hmem (List.not_mem_nil _)
  | cons a t ih =>
    intro init hmem
    rcases List.mem_cons.mp hmem with rfl | hmt
    · rw [List.foldl_cons, habs1, aux]
    · rw [List.foldl_cons]
      exact ih _ hmt

/-- On a uniformly maximum-valued source with an all-ones rect kernel and the
center anchor, the erosion selection selects, wherever both checked
subtractions succeed, the scaled maximum for an in-bounds sample and
`P::default()` for an out-of-bounds one. -/
theorem erosionCodeSel_rect_const {P : Type} (ops : PixelOps P) (w h kw kh j i : ℕ)
    (hkm : kw * kh < U32M) (hwkw : w + kw < U32M) (hhkh : h + kh < U32M)
    (hj : j < w) (hi : i < h)
    (c : ℕ × ℕ) (h1 : c.1 < kw) (h2 : c.2 < kh) :
    erosionCodeSel ops (constImg P w h (ops.pcompl ops.pdefault)) (fromShapeRect kw kh)
        (kw / 2) (kh / 2) j i c =
      if kw / 2 ≤ j + c.1 ∧ kh / 2 ≤ i + c.2
      then some (if j + c.1 - kw / 2 < w ∧ i + c.2 - kh / 2 < h
        then ops.pscale (ops.pcompl ops.pdefault) 1 else ops.pdefault)
      else none := by
  unfold erosionCodeSel
  rw [fromShapeRect_getPixel hkm h1 h2]
  have hm1 : (j + c.1) % U32M = j + c.1 := Nat.mod_eq_of_lt (by omega)
  have hm2 : (i + c.2) % U32M = i + c.2 := Nat.mod_eq_of_lt (by omega)
  rw [hm1, hm2]
  by_cases hc1 : kw / 2 ≤ j + c.1
  · by_cases hc2 : kh / 2 ≤ i + c.2
    · rw [checkedSub_eq_some hc1, checkedSub_eq_some hc2, if_pos ⟨hc1, hc2⟩]
      by_cases hb : j + c.1 - kw / 2 < w ∧ i + c.2 - kh / 2 < h
      · rw [if_pos hb]
        have hx : (constImg P w h (ops.pcompl ops.pdefault)).getPixel
            (j + c.1 - kw / 2) (i + c.2 - kh / 2) = some (ops.pcompl ops.pdefault) := by
          unfold constImg ImageF.getPixel
          rw [if_pos hb]
        simp [hx]
      · rw [if_neg hb]
        have hx : (constImg P w h (ops.pcompl ops.pdefault)).getPixel
            (j + c.1 - kw / 2) (i + c.2 - kh / 2) = none := by
          unfold constImg ImageF.getPixel
          rw [if_neg hb]
        simp [hx]
    · rw [checkedSub_eq_some hc1, checkedSub_eq_none hc2, if_neg (by omega)]
      simp
  · rw [checkedSub_eq_none hc1, if_neg (by omega)]
    cases hcs : checkedSub (i + c.2) (kh / 2) with
    | none => simp
    | some sy => simp

/-- Counterexample to claim C2 as stated: eroding the uniformly
maximum-valued 1×1 image with the all-ones 3×3 rect kernel at position (0,0)
with the default center anchor writes 0, not the maximum 255: the taps whose
samples fall beyond the right/bottom edge clamp the minimum to
`P::default()`. -/
theorem c2_erosion_identity_counterexample :
    (Erosion.draw opsU8 (Erosion.new imgMax1 (fromShapeRect 3 3)) destC).pix 0 0 = 0 ∧
    opsU8.pcompl opsU8.pdefault = 255 ∧ (0 : Fin 256) ≠ 255 :=
  ⟨by decide, by decide, by decide⟩

/-- Claim C2 (amended): for a uniformly maximum-valued source and a fully-1.0
rect kernel, `Erosion::draw` at (0,0) with the default center anchor leaves
unchanged (equal to the maximum) exactly those pixels whose kernel window does
not extend past the right/bottom source edges (`j + kw ≤ w + kw/2` and
`i + kh ≤ h + kh/2`; for `kw, kh ≤ 2` that is every pixel); every other in-box
pixel is written `P::default()` — its window contains an out-of-bounds
positive-weight tap, which clamps the minimum to the bottom. -/
theorem c2_erosion_rect_identity {P : Type} (ops : PixelOps P)
    (htop : ∀ p, ops.pmin (ops.pcompl ops.pdefault) p = p)
    (hidem : ops.pmin (ops.pcompl ops.pdefault) (ops.pcompl ops.pdefault) =
      ops.pcompl ops.pdefault)
    (hscale1 : ops.pscale (ops.pcompl ops.pdefault) 1 = ops.pcompl ops.pdefault)
    (habs1 : ∀ p, ops.pmin p ops.pdefault = ops.pdefault)
    (habs2 : ∀ p, ops.pmin ops.pdefault p = ops.pdefault)
    (w h kw kh : ℕ) (hkw : 0 < kw) (hkh : 0 < kh)
    (hkm : kw * kh < U32M) (hwkw : w + kw < U32M) (hhkh : h + kh < U32M)
    (dest : ImageF P) (j i : ℕ) (hj : j < w) (hi : i < h) :
    ((j + kw ≤ w + kw / 2 ∧ i + kh ≤ h + kh / 2) →
      (Erosion.draw ops
        (Erosion.new (constImg P w h (ops.pcompl ops.pdefault)) (fromShapeRect kw kh))
        dest).pix j i = ops.pcompl ops.pdefault) ∧
    ((w + kw / 2 < j + kw ∨ h + kh / 2 < i + kh) →
      (Erosion.draw ops
        (Erosion.new (constImg P w h (ops.pcompl ops.pdefault)) (fromShapeRect kw kh))
        dest).pix j i = ops.pdefault) := by
  have hD := erosionDraw_pix ops (constImg P w h (ops.pcompl ops.pdefault))
    (fromShapeRect kw kh) 0 0 (mkRat 1 2) (mkRat 1 2) dest
    (by show 0 + w < U32M; omega) (by show 0 + h < U32M; omega) hj hi
  rw [Nat.zero_add, Nat.zero_add] at hD
  have hP : erosionPixel ops (constImg P w h (ops.pcompl ops.pdefault))
      (fromShapeRect kw kh) (anchorOffset (fromShapeRect kw kh).width (mkRat 1 2))
      (anchorOffset (fromShapeRect kw kh).height (mkRat 1 2)) j i =
      ((kernelCells kw kh).filterMap
        (erosionCodeSel ops (constImg P w h (ops.pcompl ops.pdefault))
          (fromShapeRect kw kh) (kw / 2) (kh / 2) j i)).foldl
        ops.pmin (ops.pcompl ops.pdefault) := by
    rw [erosionPixel_eq_filterMap,
      show (fromShapeRect kw kh).width = kw from rfl,
      show (fromShapeRect kw kh).height = kh from rfl,
      anchorOffset_half, anchorOffset_half]
  have hbase : (Erosion.draw ops
      (Erosion.new (constImg P w h (ops.pcompl ops.pdefault)) (fromShapeRect kw kh))
      dest).pix j i =
      ((kernelCells kw kh).filterMap
        (erosionCodeSel ops (constImg P w h (ops.pcompl ops.pdefault))
          (fromShapeRect kw kh) (kw / 2) (kh / 2) j i)).foldl
        ops.pmin (ops.pcompl ops.pdefault) := hD.trans hP
  constructor
  · rintro ⟨hjw, hih⟩
    rw [hbase]
    apply foldl_const_of_neutral ops.pmin (ops.pcompl ops.pdefault) (ops.pcompl ops.pdefault)
      (htop _) hidem
    · apply List.ne_nil_of_mem (a := ops.pcompl ops.pdefault)
      apply List.mem_filterMap.mpr
      refine ⟨(kw / 2, kh / 2), mem_kernelCells.mpr ⟨by omega, by omega⟩, ?_⟩
      rw [erosionCodeSel_rect_const ops w h kw kh j i hkm hwkw hhkh hj hi
        (kw / 2, kh / 2) (by omega) (by omega)]
      rw [if_pos ⟨by omega, by omega⟩, if_pos (by constructor <;> omega), hscale1]
    · intro a ha
      obtain ⟨c, hc, hsel⟩ := List.mem_filterMap.mp ha
      obtain ⟨h1, h2⟩ := mem_kernelCells.mp hc
      rw [erosionCodeSel_rect_const ops w h kw kh j i hkm hwkw hhkh hj hi
        c h1 h2] at hsel
      by_cases hcc : kw / 2 ≤ j + c.1 ∧ kh / 2 ≤ i + c.2
      · rw [if_pos hcc, if_pos (by constructor <;> omega), hscale1] at hsel
        exact (Option.some.injEq _ _ ▸ hsel).symm
      · rw [if_neg hcc] at hsel
        exact absurd hsel (Option.noConfusion)
  · intro hout
    rw [hbase]
    apply foldl_absorb ops.pmin ops.pdefault habs1 habs2
    apply List.mem_filterMap.mpr
    rcases hout with hox | hoy
    · refine ⟨(kw - 1, kh / 2), mem_kernelCells.mpr ⟨by omega, by omega⟩, ?_⟩
      rw [erosionCodeSel_rect_const ops w h kw kh j i hkm hwkw hhkh hj hi
        (kw - 1, kh / 2) (by omega) (by omega)]
      rw [if_pos ⟨by omega, by omega⟩, if_neg (by omega)]
    · refine ⟨(kw / 2, kh - 1), mem_kernelCells.mpr ⟨by omega, by omega⟩, ?_⟩
      rw [erosionCodeSel_rect_const ops w h kw kh j i hkm hwkw hhkh hj hi
        (kw / 2, kh - 1) (by omega) (by omega)]
      rw [if_pos ⟨by omega, by omega⟩, if_neg (by omega)]

/-- Distinct in-row-range coordinates have distinct flat indices. -/
theorem flatIdx_inj {w x y xq yq : ℕ} (hx : x < w) (hxq : xq < w)
    (heq : y * w + x = yq * w + xq) : x = xq ∧ y = yq := by
  rcases Nat.lt_trichotomy y yq with hlt | rfl | hgt
  · exfalso
    have h1 : (y + 1) * w ≤ yq * w := Nat.mul_le_mul_right w hlt
    rw [Nat.succ_mul] at h1
    omega
  · omega
  · exfalso
    have h1 : (yq + 1) * w ≤ y * w := Nat.mul_le_mul_right w hgt
    rw [Nat.succ_mul] at h1
    omega

/-- Pointwise description of a sequence of weight-1.0 writes: a cell holds 1.0
if some write targets it, and is otherwise untouched. -/
theorem applyOnes_getPixel :
    ∀ (ws : List (ℕ × ℕ)) (k : KernelImage),
      k.data.length = k.width * k.height → k.width * k.height < U32M →
      (∀ c ∈ ws, c.1 < k.width ∧ c.2 < k.height) →
      ∀ x y : ℕ, x < k.width → y < k.height →
        (k.applyOnes ws).getPixel x y =
          if (x, y) ∈ ws then some 1 else k.getPixel x y := by
  intro ws
  induction ws with
  | nil =>
    intro k _ _ _ x y _ _
    simp [KernelImage.applyOnes]
  | cons c t ih =>
    intro k hlen hsz hws x y hx hy
    have hc := hws c (List.mem_cons_self c t)
    have hws' : ∀ d ∈ t, d.1 < (k.setCell c.1 c.2 1).width ∧
        d.2 < (k.setCell c.1 c.2 1).height :=
      fun d hd => hws d (List.mem_cons_of_mem c hd)
    have hlen' : (k.setCell c.1 c.2 1).data.length =
        (k.setCell c.1 c.2 1).width * (k.setCell c.1 c.2 1).height := by
      show (k.data.set _ 1).length = k.width * k.height
      rw [List.length_set]
      exact hlen
    show ((k.setCell c.1 c.2 1).applyOnes t).getPixel x y = _
    rw [ih (k.setCell c.1 c.2 1) hlen' hsz hws' x y hx hy]
    by_cases hmt : (x, y) ∈ t
    · rw [if_pos hmt, if_pos (List.mem_cons_of_mem c hmt)]
    · rw [if_neg hmt]
      by_cases hxc : (x, y) = c
      · rw [if_pos (by rw [hxc]; exact List.mem_cons_self c t)]
        subst hxc
        show (k.data.set ((y * k.width + x) % U32M) 1)[(y * k.width + x) % U32M]? = some 1
        apply List.getElem?_set_self
        rw [Nat.mod_eq_of_lt (Nat.lt_trans (flatIdx_lt hx hy) hsz), hlen]
        exact flatIdx_lt hx hy
      · rw [if_neg (by
          intro hmem
          rcases List.mem_cons.mp hmem with hh | hh
          · exact hxc hh
          · exact hmt hh)]
        show (k.data.set ((c.2 * k.width + c.1) % U32M) 1)[(y * k.width + x) % U32M]? =
          k.data[(y * k.width + x) % U32M]?
        apply List.getElem?_set_ne
        rw [Nat.mod_eq_of_lt (Nat.lt_trans (flatIdx_lt hc.1 hc.2) hsz),
          Nat.mod_eq_of_lt (Nat.lt_trans (flatIdx_lt hx hy) hsz)]
        intro heq
        obtain ⟨h1, h2⟩ := flatIdx_inj hc.1 hx heq
        exact hxc (by rw [Prod.ext_iff]; exact ⟨h1.symm, h2.symm⟩)

/-- Membership in the `Cross` write sequence. -/
theorem mem_crossWrites {w h x y : ℕ} :
    (x, y) ∈ crossWrites w h ↔ (x = w / 2 ∧ y < h) ∨ (y = h / 2 ∧ x < w) := by
  unfold crossWrites
  simp only [List.mem_append, List.mem_map, List.mem_range, Prod.mk.injEq]
  constructor
  · rintro (⟨a, ha, heq1, heq2⟩ | ⟨a, ha, heq1, heq2⟩)
    · left
      exact ⟨heq1.symm, heq2 ▸ ha⟩
    · right
      exact ⟨heq2.symm, heq1 ▸ ha⟩
  · rintro (⟨rfl, hyh⟩ | ⟨rfl, hxw⟩)
    · left
      exact ⟨y, hyh, rfl, rfl⟩
    · right
      exact ⟨x, hxw, rfl, rfl⟩

/-- Claim C7: in a `Cross` kernel of positive dimensions, a weight is 1.0
exactly when its row index equals `h / 2` or its column index equals `w / 2`;
every other weight is 0.0. -/
theorem c7_cross_weights (w h : ℕ) (hw : 0 < w) (_hh : 0 < h) (hsz : w * h < U32M)
    (x y : ℕ) (hx : x < w) (hy : y < h) :
    (fromShapeCross w h).getPixel x y =
      some (if y = h / 2 ∨ x = w / 2 then 1 else 0) := by
  unfold fromShapeCross
  rw [applyOnes_getPixel (crossWrites w h) (KernelImage.new w h)
    (by
      show (List.replicate ((w * h) % U32M) (0:ℚ)).length = w * h
      rw [List.length_replicate, Nat.mod_eq_of_lt hsz])
    hsz
    (by
      intro c hcm
      have := mem_crossWrites.mp (show (c.1, c.2) ∈ crossWrites w h from hcm)
      show c.1 < w ∧ c.2 < h
      omega)
    x y hx hy]
  by_cases hcond : y = h / 2 ∨ x = w / 2
  · rw [if_pos (mem_crossWrites.mpr (by omega)), if_pos hcond]
  · rw [if_neg (fun hmem => hcond (by
      have := mem_crossWrites.mp hmem
      omega)), if_neg hcond]
    show (List.replicate ((w * h) % U32M) (0:ℚ))[(y * w + x) % U32M]? = some 0
    rw [List.getElem?_replicate,
      if_pos (by
        rw [Nat.mod_eq_of_lt (Nat.lt_trans (flatIdx_lt hx hy) hsz), Nat.mod_eq_of_lt hsz]
        exact flatIdx_lt hx hy)]

/-- Witness for C7 on the 3×3 cross at an on-cross and an off-cross cell. -/
theorem c7_cross_weights_witness :
    (0:ℕ) < 3 ∧
    (fromShapeCross 3 3).getPixel 0 1 = some (if 1 = 3 / 2 ∨ 0 = 3 / 2 then 1 else 0) ∧
    (fromShapeCross 3 3).getPixel 0 0 = some (if 0 = 3 / 2 ∨ 0 = 3 / 2 then 1 else 0) :=
  ⟨by decide,
    c7_cross_weights 3 3 (by decide) (by decide) (by decide) 0 1 (by decide) (by decide),
    c7_cross_weights 3 3 (by decide) (by decide) (by decide) 0 0 (by decide) (by decide)⟩

/-- Wrapping subtraction without an underflow is plain subtraction. -/
theorem wsub_eq_of_le {a b : ℕ} (hb : b ≤ a) (ha : a < U32M) : wsub a b = a - b := by
  unfold wsub
  rw [show U32M + a - b = (a - b) + U32M by omega, Nat.add_mod_right,
    Nat.mod_eq_of_lt (by omega)]

/-- A fresh kernel holds weight 0 at every in-bounds cell. -/
theorem new_getPixel {w h x y : ℕ} (hsz : w * h < U32M) (hx : x < w) (hy : y < h) :
    (KernelImage.new w h).getPixel x y = some 0 := by
  show (List.replicate ((w * h) % U32M) (0:ℚ))[(y * w + x) % U32M]? = some 0
  rw [List.getElem?_replicate,
    if_pos (by
      rw [Nat.mod_eq_of_lt (Nat.lt_trans (flatIdx_lt hx hy) hsz), Nat.mod_eq_of_lt hsz]
      exact flatIdx_lt hx hy)]

/-- Membership in the fill range in the odd case (`px = 0`): the span
`[ox - x, ox + x]` when `x ≤ ox`, empty when `ox < x < 2^31` (the `u32` start
underflows past the end). -/
theorem mem_fillRange_odd {ox x k : ℕ} (hox : ox < U32H) (hx : x < U32H) :
    k ∈ fillRange ox 0 x ↔ x ≤ ox ∧ ox - x ≤ k ∧ k ≤ ox + x := by
  have hU : U32M = 4294967296 := rfl
  have hH : U32H = 2147483648 := rfl
  have h0 : wsub ox 0 = ox := by
    rw [wsub_eq_of_le (Nat.zero_le ox) (by omega)]
    omega
  unfold fillRange
  rw [h0]
  by_cases hle : x ≤ ox
  · rw [wsub_eq_of_le hle (by omega), Nat.mod_eq_of_lt (by omega),
      if_pos (by omega)]
    simp only [List.mem_map, List.mem_range]
    constructor
    · rintro ⟨t, ht, rfl⟩
      omega
    · intro hk
      exact ⟨k - (ox - x), by omega, by omega⟩
  · rw [if_neg (by
      unfold wsub
      rw [Nat.mod_eq_of_lt (by omega), Nat.mod_eq_of_lt (by omega)]
      omega)]
    simp only [List.not_mem_nil, false_iff]
    omega

/-- Membership in the writes of one `fill_4sym` call. -/
theorem mem_fillFourSymWrites {ox oy px py x y a b : ℕ} :
    (a, b) ∈ fillFourSymWrites ox oy px py x y ↔
      a ∈ fillRange ox px x ∧
        (b = (oy + y) % U32M ∨ b = wsub (wsub oy py) y) := by
  unfold fillFourSymWrites
  simp only [List.mem_flatMap, List.mem_cons, List.not_mem_nil, or_false,
    Prod.mk.injEq]
  constructor
  · rintro ⟨k, hk, ⟨rfl, rfl⟩ | ⟨rfl, rfl⟩⟩
    · exact ⟨hk, Or.inl rfl⟩
    · exact ⟨hk, Or.inr rfl⟩
  · rintro ⟨ha, rfl | rfl⟩
    · exact ⟨a, ha, Or.inl ⟨rfl, rfl⟩⟩
    · exact ⟨a, ha, Or.inr ⟨rfl, rfl⟩⟩

/-- A cell covered by one symmetric span: horizontal extent `e` around the
center column `ox`, on one of the two rows `oy ± r`. -/
def spanCell (ox oy e r a b : ℕ) : Prop :=
  e ≤ ox ∧ ox - e ≤ a ∧ a ≤ ox + e ∧ (b = oy + r ∨ b = oy - r)

/-- Membership in the full non-anti-aliased ellipse write sequence for odd
dimensions, under the geometric bounds the `f32` boundary values satisfy. -/
theorem mem_ellipseWrites_odd {w h : ℕ} (sw : SweepData)
    (how : w % 2 = 1) (hoh : h % 2 = 1) (hw : w < U32H) (hh : h < U32H)
    (hf1 : ∀ x, x ≤ sw.q1 → sw.f1 x ≤ h / 2) (hq1 : sw.q1 < U32H)
    (hf2 : ∀ y, y ≤ sw.q2 → sw.f2 y < U32H) (hq2 : sw.q2 ≤ h / 2)
    (a b : ℕ) :
    (a, b) ∈ ellipseWrites w h sw ↔
      (∃ x, x ≤ sw.q1 ∧ spanCell (w / 2) (h / 2) x (sw.f1 x) a b) ∨
      (∃ y, y ≤ sw.q2 ∧ spanCell (w / 2) (h / 2) (sw.f2 y) y a b) := by
  have hU : U32M = 4294967296 := rfl
  have hH : U32H = 2147483648 := rfl
  have hpx : 1 - w % 2 = 0 := by omega
  have hpy : 1 - h % 2 = 0 := by omega
  unfold ellipseWrites
  rw [hpx, hpy, List.mem_append]
  simp only [List.mem_flatMap, List.mem_range, mem_fillFourSymWrites]
  constructor
  · rintro (⟨x, hxq, ha, hb⟩ | ⟨y, hyq, ha, hb⟩)
    · left
      have hfb := hf1 x (by omega)
      obtain ⟨hxle, h1, h2⟩ := (mem_fillRange_odd (by omega) (by omega)).mp ha
      refine ⟨x, by omega, hxle, h1, h2, ?_⟩
      rw [Nat.mod_eq_of_lt (by omega), wsub_eq_of_le (Nat.zero_le _) (by omega),
        wsub_eq_of_le (by omega) (by omega)] at hb
      exact hb
    · right
      have hfb := hf2 y (by omega)
      obtain ⟨hxle, h1, h2⟩ := (mem_fillRange_odd (by omega) (by omega)).mp ha
      refine ⟨y, by omega, hxle, h1, h2, ?_⟩
      rw [Nat.mod_eq_of_lt (by omega), wsub_eq_of_le (Nat.zero_le _) (by omega),
        wsub_eq_of_le (by omega) (by omega)] at hb
      exact hb
  · rintro (⟨x, hxq, hxle, h1, h2, hb⟩ | ⟨y, hyq, hxle, h1, h2, hb⟩)
    · left
      have hfb := hf1 x hxq
      refine ⟨x, by omega, (mem_fillRange_odd (by omega) (by omega)).mpr
        ⟨hxle, h1, h2⟩, ?_⟩
      rw [Nat.mod_eq_of_lt (by omega), wsub_eq_of_le (Nat.zero_le _) (by omega),
        wsub_eq_of_le (by omega) (by omega)]
      exact hb
    · right
      have hfb := hf2 y hyq
      refine ⟨y, by omega, (mem_fillRange_odd (by omega) (by omega)).mpr
        ⟨hxle, h1, h2⟩, ?_⟩
      rw [Nat.mod_eq_of_lt (by omega), wsub_eq_of_le (Nat.zero_le _) (by omega),
        wsub_eq_of_le (by omega) (by omega)]
      exact hb

/-- A symmetric span is invariant under mirroring the column about the
center. -/
theorem spanCell_mirror_x {ox oy e r a b : ℕ} (h : spanCell ox oy e r a b) :
    spanCell ox oy e r (2 * ox - a) b := by
  unfold spanCell at h ⊢
  omega

/-- A symmetric span is invariant under mirroring the row about the center,
provided the row offset does not exceed the center. -/
theorem spanCell_mirror_y {ox oy e r a b : ℕ} (hr : r ≤ oy) (h : spanCell ox oy e r a b) :
    spanCell ox oy e r a (2 * oy - b) := by
  unfold spanCell at h ⊢
  omega

/-- Claim C5: for every odd width and height, the `Ellipse` kernel produced by
`from_shape` is mirror-symmetric about both axes — for every in-range cell,
`weight(x, y) = weight(w-1-x, y)` and `weight(x, y) = weight(x, h-1-y)`.  The
`f32` sweep bounds and boundary floors are universally quantified (as `sw`)
within the ranges the floating-point computation keeps them in: each span's
row offset is at most `h / 2`, and the sweep bounds are below `2^31`. -/
theorem c5_ellipse_odd_symmetric (w h : ℕ) (sw : SweepData)
    (how : w % 2 = 1) (hoh : h % 2 = 1) (hsz : w * h < U32M)
    (hw : w < U32H) (hh : h < U32H)
    (hf1 : ∀ x, x ≤ sw.q1 → sw.f1 x ≤ h / 2) (hq1 : sw.q1 < U32H)
    (hf2 : ∀ y, y ≤ sw.q2 → sw.f2 y < U32H) (hq2 : sw.q2 ≤ h / 2)
    (x y : ℕ) (hx : x < w) (hy : y < h) :
    (fromShapeEllipse w h sw).getPixel x y =
        (fromShapeEllipse w h sw).getPixel (w - 1 - x) y ∧
      (fromShapeEllipse w h sw).getPixel x y =
        (fromShapeEllipse w h sw).getPixel x (h - 1 - y) := by
  have hws : ∀ c ∈ ellipseWrites w h sw, c.1 < (KernelImage.new w h).width ∧
      c.2 < (KernelImage.new w h).height := by
    intro c hcm
    obtain hmem := (mem_ellipseWrites_odd sw how hoh hw hh hf1 hq1 hf2 hq2 c.1 c.2).mp hcm
    show c.1 < w ∧ c.2 < h
    rcases hmem with ⟨t, ht, hsp⟩ | ⟨t, ht, hsp⟩
    · have := hf1 t ht
      unfold spanCell at hsp
      omega
    · unfold spanCell at hsp
      omega
  have hlen : (KernelImage.new w h).data.length =
      (KernelImage.new w h).width * (KernelImage.new w h).height := by
    show (List.replicate ((w * h) % U32M) (0:ℚ)).length = w * h
    rw [List.length_replicate, Nat.mod_eq_of_lt hsz]
  have hG : ∀ a b : ℕ, a < w → b < h →
      (fromShapeEllipse w h sw).getPixel a b =
        if (a, b) ∈ ellipseWrites w h sw then some 1 else some 0 := by
    intro a b ha hb
    unfold fromShapeEllipse
    rw [applyOnes_getPixel (ellipseWrites w h sw) (KernelImage.new w h) hlen hsz hws a b ha hb]
    by_cases hm : (a, b) ∈ ellipseWrites w h sw
    · rw [if_pos hm, if_pos hm]
    · rw [if_neg hm, if_neg hm, new_getPixel hsz ha hb]
  have hmir_x : ∀ a b : ℕ, a < w →
      ((a, b) ∈ ellipseWrites w h sw ↔ (w - 1 - a, b) ∈ ellipseWrites w h sw) := by
    intro a b ha
    rw [mem_ellipseWrites_odd sw how hoh hw hh hf1 hq1 hf2 hq2,
      mem_ellipseWrites_odd sw how hoh hw hh hf1 hq1 hf2 hq2]
    constructor
    · rintro (⟨t, ht, hsp⟩ | ⟨t, ht, hsp⟩)
      · left
        refine ⟨t, ht, ?_⟩
        have := spanCell_mirror_x hsp
        have he : w - 1 - a = 2 * (w / 2) - a := by omega
        rw [he]
        exact this
      · right
        refine ⟨t, ht, ?_⟩
        have := spanCell_mirror_x hsp
        have he : w - 1 - a = 2 * (w / 2) - a := by omega
        rw [he]
        exact this
    · rintro (⟨t, ht, hsp⟩ | ⟨t, ht, hsp⟩)
      · left
        refine ⟨t, ht, ?_⟩
        have := spanCell_mirror_x hsp
        have he : 2 * (w / 2) - (w - 1 - a) = a := by omega
        rw [he] at this
        exact this
      · right
        refine ⟨t, ht, ?_⟩
        have := spanCell_mirror_x hsp
        have he : 2 * (w / 2) - (w - 1 - a) = a := by omega
        rw [he] at this
        exact this
  have hmir_y : ∀ a b : ℕ, b < h →
      ((a, b) ∈ ellipseWrites w h sw ↔ (a, h - 1 - b) ∈ ellipseWrites w h sw) := by
    intro a b hb
    rw [mem_ellipseWrites_odd sw how hoh hw hh hf1 hq1 hf2 hq2,
      mem_ellipseWrites_odd sw how hoh hw hh hf1 hq1 hf2 hq2]
    constructor
    · rintro (⟨t, ht, hsp⟩ | ⟨t, ht, hsp⟩)
      · left
        refine ⟨t, ht, ?_⟩
        have := spanCell_mirror_y (hf1 t ht) hsp
        have he : h - 1 - b = 2 * (h / 2) - b := by omega
        rw [he]
        exact this
      · right
        refine ⟨t, ht, ?_⟩
        have := spanCell_mirror_y (by omega) hsp
        have he : h - 1 - b = 2 * (h / 2) - b := by omega
        rw [he]
        exact this
    · rintro (⟨t, ht, hsp⟩ | ⟨t, ht, hsp⟩)
      · left
        refine ⟨t, ht, ?_⟩
        have := spanCell_mirror_y (hf1 t ht) hsp
        have he : 2 * (h / 2) - (h - 1 - b) = b := by omega
        rw [he] at this
        exact this
      · right
        refine ⟨t, ht, ?_⟩
        have := spanCell_mirror_y (by omega) hsp
        have he : 2 * (h / 2) - (h - 1 - b) = b := by omega
        rw [he] at this
        exact this
  constructor
  · rw [hG x y hx hy, hG (w - 1 - x) y (by omega) hy]
    by_cases hm : (x, y) ∈ ellipseWrites w h sw
    · rw [if_pos hm, if_pos ((hmir_x x y hx).mp hm)]
    · rw [if_neg hm, if_neg (fun hmm => hm ((hmir_x x y hx).mpr hmm))]
  · rw [hG x y hx hy, hG x (h - 1 - y) hx (by omega)]
    by_cases hm : (x, y) ∈ ellipseWrites w h sw
    · rw [if_pos hm, if_pos ((hmir_y x y hy).mp hm)]
    · rw [if_neg hm, if_neg (fun hmm => hm ((hmir_y x y hy).mpr hmm))]

/-- A sequence of weight-1.0 writes never changes the buffer length or the
stored dimensions. -/
theorem applyOnes_preserves :
    ∀ (ws : List (ℕ × ℕ)) (k : KernelImage),
      (k.applyOnes ws).data.length = k.data.length ∧
        (k.applyOnes ws).width = k.width ∧ (k.applyOnes ws).height = k.height := by
  intro ws
  induction ws with
  | nil => intro k; exact ⟨rfl, rfl, rfl⟩
  | cons c t ih =>
    intro k
    obtain ⟨h1, h2, h3⟩ := ih (k.setCell c.1 c.2 1)
    refine ⟨?_, h2, h3⟩
    show ((k.setCell c.1 c.2 1).applyOnes t).data.length = k.data.length
    rw [h1]
    exact List.length_set ..

/-- Counterexample to claim C9 as stated: in release-mode `u32` arithmetic
`new(2^31, 2)` wraps the product `2^31 * 2` to `0`, so the constructed kernel
has an empty buffer while `width * height = 2^32`: the invariant
`data.len() == width * height` fails (in a debug build the multiplication is
fatal instead, so no such kernel exists at all). -/
theorem c9_overflow_counterexample :
    (KernelImage.new U32H 2).data.length = 0 ∧
      (KernelImage.new U32H 2).width * (KernelImage.new U32H 2).height ≠ 0 := by
  constructor
  · show (List.replicate ((U32H * 2) % U32M) (0:ℚ)).length = 0
    rw [List.length_replicate]
    decide
  · decide

/-- Claim C9 (amended): every `KernelImage` buffer has length
`(width * height) mod 2^32` — the `u32` product — which equals
`width * height` exactly when the product does not overflow; the invariant is
established by `new` and by every `from_shape` arm, and `pixel_mut` writes
never change the length or the stored dimensions. -/
theorem c9_length_invariant :
    (∀ w h : ℕ, (KernelImage.new w h).data.length = (w * h) % U32M ∧
      (KernelImage.new w h).width = w ∧ (KernelImage.new w h).height = h) ∧
    (∀ (k : KernelImage) (x y : ℕ) (v : ℚ),
      (k.setCell x y v).data.length = k.data.length ∧
      (k.setCell x y v).width = k.width ∧ (k.setCell x y v).height = k.height) ∧
    (∀ w h : ℕ, (fromShapeRect w h).data.length = (w * h) % U32M ∧
      (fromShapeRect w h).width = w ∧ (fromShapeRect w h).height = h) ∧
    (∀ w h : ℕ, (fromShapeCross w h).data.length = (w * h) % U32M ∧
      (fromShapeCross w h).width = w ∧ (fromShapeCross w h).height = h) ∧
    (∀ (w h : ℕ) (sw : SweepData),
      (fromShapeEllipse w h sw).data.length = (w * h) % U32M ∧
      (fromShapeEllipse w h sw).width = w ∧ (fromShapeEllipse w h sw).height = h) ∧
    (∀ w h : ℕ, w * h < U32M → (KernelImage.new w h).data.length = w * h) := by
  refine ⟨fun w h => ⟨?_, rfl, rfl⟩, fun k x y v => ⟨List.length_set .., rfl, rfl⟩,
    fun w h => ⟨fromShapeRect_length w h, rfl, rfl⟩,
    fun w h => ?_, fun w h sw => ?_, fun w h hsz => ?_⟩
  · exact List.length_replicate ..
  · unfold fromShapeCross
    obtain ⟨h1, h2, h3⟩ := applyOnes_preserves (crossWrites w h) (KernelImage.new w h)
    refine ⟨?_, h2, h3⟩
    rw [h1]
    exact List.length_replicate ..
  · unfold fromShapeEllipse
    obtain ⟨h1, h2, h3⟩ := applyOnes_preserves (ellipseWrites w h sw) (KernelImage.new w h)
    refine ⟨?_, h2, h3⟩
    rw [h1]
    exact List.length_replicate ..
  · show (List.replicate ((w * h) % U32M) (0:ℚ)).length = w * h
    rw [List.length_replicate]
    exact Nat.mod_eq_of_lt hsz

/-- Witness for the amended C9 at a non-overflowing size. -/
theorem c9_length_invariant_witness :
    3 * 3 < U32M ∧ (KernelImage.new 3 3).data.length = 3 * 3 :=
  ⟨by decide, c9_length_invariant.2.2.2.2.2 3 3 (by decide)⟩

/-- Witness for C5 on the 3×3 ellipse with its actual sweep data
(`quarter = 1`, boundary floors 1). -/
theorem c5_ellipse_odd_symmetric_witness :
    (3 % 2 = 1) ∧
    ((fromShapeEllipse 3 3 ⟨1, fun _ => 1, 1, fun _ => 1⟩).getPixel 0 0 =
        (fromShapeEllipse 3 3 ⟨1, fun _ => 1, 1, fun _ => 1⟩).getPixel (3 - 1 - 0) 0 ∧
      (fromShapeEllipse 3 3 ⟨1, fun _ => 1, 1, fun _ => 1⟩).getPixel 0 0 =
        (fromShapeEllipse 3 3 ⟨1, fun _ => 1, 1, fun _ => 1⟩).getPixel 0 (3 - 1 - 0)) :=
  ⟨by decide,
    c5_ellipse_odd_symmetric 3 3 ⟨1, fun _ => 1, 1, fun _ => 1⟩ (by decide) (by decide)
      (by decide) (by decide) (by decide)
      (fun x _ => by show (1:ℕ) ≤ 3 / 2; decide) (by decide)
      (fun y _ => by show (1:ℕ) < U32H; decide) (by decide)
      0 0 (by decide) (by decide)⟩

set_option maxRecDepth 100000 in
/-- Witness for the amended C2, exercising both directions: a 2×2 maximum
source eroded with an all-ones 2×2 kernel is unchanged at the border pixel
(1, 1), and a 1×1 maximum source eroded with an all-ones 3×3 kernel is
clamped to `P::default()` at (0, 0). -/
theorem c2_erosion_rect_identity_witness :
    (∀ p : Fin 256, opsU8.pmin (opsU8.pcompl opsU8.pdefault) p = p) ∧
    ((1:ℕ) + 2 ≤ 2 + 2 / 2 ∧ (1:ℕ) + 2 ≤ 2 + 2 / 2) ∧
    (Erosion.draw opsU8
        (Erosion.new (constImg (Fin 256) 2 2 (opsU8.pcompl opsU8.pdefault))
          (fromShapeRect 2 2))
        destC).pix 1 1 = opsU8.pcompl opsU8.pdefault ∧
    ((1:ℕ) + 3 / 2 < 0 + 3 ∨ (1:ℕ) + 3 / 2 < 0 + 3) ∧
    (Erosion.draw opsU8
        (Erosion.new (constImg (Fin 256) 1 1 (opsU8.pcompl opsU8.pdefault))
          (fromShapeRect 3 3))
        destC).pix 0 0 = opsU8.pdefault :=
  ⟨by decide, by decide,
    (c2_erosion_rect_identity opsU8 (by decide) (by decide) (by decide) (by decide)
      (by decide) 2 2 2 2 (by decide) (by decide) (by decide) (by decide) (by decide)
      destC 1 1 (by decide) (by decide)).1 (by decide),
    by decide,
    (c2_erosion_rect_identity opsU8 (by decide) (by decide) (by decide) (by decide)
      (by decide) 1 1 3 3 (by decide) (by decide) (by decide) (by decide) (by decide)
      destC 0 0 (by decide) (by decide)).2 (by decide)⟩

/-- Witness for C8: a sample equal to the threshold binarises to 0. -/
theorem c8_stroke_binarize_witness :
    ((Stroke.new imgRgba0 1 rgba0).withThreshold 5).alpha.pix 0 0 =
      ((Stroke.new imgRgba0 1 rgba0).withThreshold 5).threshold ∧
    ((Stroke.new imgRgba0 1 rgba0).withThreshold 5).binarized.pix 0 0 = 0 :=
  ⟨by decide,
    (c8_stroke_binarize ((Stroke.new imgRgba0 1 rgba0).withThreshold 5) 0 0).2.2 (by decide)⟩


end Ril
